import Mathlib

/-!
# Verification of the go-bigwig read core

A shallow embedding of the read path of the `gobigwig` Go package:
the block decoder (`bwGetOverlappingIntervalsCore`), the R-tree overlap
walker (`overlapsLeaf` / `overlapsNonLeaf`), the streaming iterator
(`bwOverlappingIntervalsIterator` / `bwIteratorNext`), the per-base value
extraction (`bwGetValues`), the remote/local resource layer (`URL.Read` /
`URL.Seek`) and the zoom engine (`bwGetValuesFromZoom`,
`bwGetValuesFromRaw`, `bwGetValuesAutoZoom`, `GetZoomValues`).

Modelling conventions:
* Machine integers (`uint32`, `uint16`) are `Nat` with explicit `% 4294967296`
  where the Go code can overflow; comparisons and subtractions that cannot
  underflow on the paths considered are plain `Nat` operations.
* Byte buffers are `List Nat` (each element one byte).
* `float32` payload values travel as their raw 4-byte little-endian bit
  pattern (a `Nat`); where the zoom engine does float arithmetic the bit
  pattern is interpreted through an abstract finite-value decoder
  `f32 : Nat → ℚ` carried by the file model, and float arithmetic is
  modelled exactly over `ℚ` (the claims checked here are about control
  flow, lengths, ordering and NaN-placement, not about rounding).
* The IEEE specials the zoom engine manipulates (NaN output bins, the
  `-Inf` / `+Inf` accumulator seeds) are represented explicitly by the
  `ZVal` type below.
* Fallible Go paths that return `nil` are `Option`, with `none` for `nil`.
* zlib decompression is an abstract parameter `dec` of the file model.
-/

/-- 2^32, the modulus of Go's `uint32` arithmetic. -/
def U32 : ℕ := 4294967296

/-- Little-endian `uint32` of the first four bytes of a buffer
(`binary.LittleEndian.Uint32`); missing bytes read as 0. -/
def u32le (b : List ℕ) : ℕ :=
  b.getD 0 0 + 256 * b.getD 1 0 + 65536 * b.getD 2 0 + 16777216 * b.getD 3 0

/-- Little-endian `uint16` of the first two bytes of a buffer. -/
def u16le (b : List ℕ) : ℕ :=
  b.getD 0 0 + 256 * b.getD 1 0

/-- Data-block header (`bwDataHeader_t`). -/
structure bwDataHeader where
  tid : ℕ
  hStart : ℕ
  hEnd : ℕ
  step : ℕ
  span : ℕ
  typ : ℕ
  nItems : ℕ
  deriving DecidableEq, Repr

/-- `bwFillDataHdr`: parse the 24-byte data-block header.
Field offsets follow the source: tid at 0, start at 4, end at 8, step at 12,
span at 16, type at byte 20, nItems (u16) at 22. -/
def bwFillDataHdr (b : List ℕ) : bwDataHeader :=
  { tid := u32le b
    hStart := u32le (b.drop 4)
    hEnd := u32le (b.drop 8)
    step := u32le (b.drop 12)
    span := u32le (b.drop 16)
    typ := b.getD 20 0
    nItems := u16le (b.drop 22) }

/-- One emitted interval record `(start, end, value)`; the value is kept as
its raw `float32` bit pattern. -/
structure bwInterval where
  iStart : ℕ
  iEnd : ℕ
  valBits : ℕ
  deriving DecidableEq, Repr

/-- The record filter of `bwGetOverlappingIntervalsCore`:
the source skips a record iff `end <= ostart || start >= oend`. -/
def emitKeep (ostart oend s e : ℕ) : Bool :=
  !(decide (e ≤ ostart) || decide (oend ≤ s))

/-- `pushIntervals` guarded by the record filter: the candidate record is
appended exactly when the source's skip condition fails. -/
def pushFilter (ostart oend s e v : ℕ) : List bwInterval :=
  if e ≤ ostart ∨ oend ≤ s then [] else [⟨s, e, v⟩]

/-- The per-item decode loop of `bwGetOverlappingIntervalsCore`.
Arguments after the query window: remaining item count, the running `start`
variable, the remaining payload `p`.

The Go `break` inside each `switch` case leaves the `switch` only: on a
truncated tail the loop continues with `end = 0`, `value = 0`, `start` and
`p` unchanged, so the record filter (with `end = 0 ≤ ostart`) drops the
stale candidate and the remaining iterations emit nothing.  An unknown
section type returns `nil` (here `none`). -/
def bwDecodeItems (typ stp spn ostart oend : ℕ) : ℕ → ℕ → List ℕ → Option (List bwInterval)
  | 0, _, _ => some []
  | n + 1, start, p =>
    if typ = 1 then
      if p.length < 12 then
        (bwDecodeItems typ stp spn ostart oend n start p).map
          (fun rest => pushFilter ostart oend start 0 0 ++ rest)
      else
        let s := u32le p
        let e := u32le (p.drop 4)
        let v := u32le (p.drop 8)
        (bwDecodeItems typ stp spn ostart oend n s (p.drop 12)).map
          (fun rest => pushFilter ostart oend s e v ++ rest)
    else if typ = 2 then
      if p.length < 8 then
        (bwDecodeItems typ stp spn ostart oend n start p).map
          (fun rest => pushFilter ostart oend start 0 0 ++ rest)
      else
        let s := u32le p
        let e := (s + spn) % U32
        let v := u32le (p.drop 4)
        (bwDecodeItems typ stp spn ostart oend n s (p.drop 8)).map
          (fun rest => pushFilter ostart oend s e v ++ rest)
    else if typ = 3 then
      if p.length < 4 then
        (bwDecodeItems typ stp spn ostart oend n start p).map
          (fun rest => pushFilter ostart oend start 0 0 ++ rest)
      else
        let s := (start + stp) % U32
        let e := (s + spn) % U32
        let v := u32le p
        (bwDecodeItems typ stp spn ostart oend n s (p.drop 4)).map
          (fun rest => pushFilter ostart oend s e v ++ rest)
    else
      none

/-- Decode one uncompressed data block against a query `(tid, ostart, oend)`:
the length check, header parse, cross-chromosome skip
(`hdr.Tid != tid → continue`, contributing no records and no error)
and the item loop of `bwGetOverlappingIntervalsCore`. -/
def bwDecodeBlock (tid ostart oend : ℕ) (data : List ℕ) : Option (List bwInterval) :=
  if data.length < 24 then none
  else
    let hdr := bwFillDataHdr data
    if hdr.tid ≠ tid then some []
    else bwDecodeItems hdr.typ hdr.step hdr.span ostart oend hdr.nItems hdr.hStart (data.drop 24)

/-- Bounding box of one R-tree child
(`ChrIdxStart/BaseStart/ChrIdxEnd/BaseEnd` slices of `bwRTreeNode_t`). -/
structure RTChild where
  chrIdxStart : ℕ
  baseStart : ℕ
  chrIdxEnd : ℕ
  baseEnd : ℕ
  deriving DecidableEq, Repr

/-- A leaf child additionally carries `(DataOffset, Size)` of its data block. -/
structure RTLeafChild where
  box : RTChild
  dataOffset : ℕ
  size : ℕ
  deriving DecidableEq, Repr

/-- In-memory R-tree (`bwRTreeNode_t` with every child materialised; the
source loads children lazily through `bwGetRTreeNode`, a pure read in the
local-file model). -/
inductive RTNode where
  | leaf (children : List RTLeafChild)
  | branch (children : List (RTChild × RTNode))
  deriving Repr

/-- The child acceptance test shared by the `continue` cascades of
`overlapsNonLeaf` and the second (fill) loop of `overlapsLeaf`:
reject if `tid` is outside `[chrIdxStart, chrIdxEnd]`; for a
cross-chromosome child reject iff (`tid == chrIdxStart` and
`baseStart >= end`) or (`tid == chrIdxEnd` and `baseEnd <= start`);
for a single-chromosome child reject iff `baseStart >= end` or
`baseEnd <= start`. -/
def childAccept (tid qs qe : ℕ) (c : RTChild) : Bool :=
  if tid < c.chrIdxStart ∨ c.chrIdxEnd < tid then false
  else if c.chrIdxStart ≠ c.chrIdxEnd then
    if tid = c.chrIdxStart then decide (c.baseStart < qe)
    else if tid = c.chrIdxEnd then decide (qs < c.baseEnd)
    else true
  else decide (c.baseStart < qe ∧ qs < c.baseEnd)

/-- First (counting) pass of `overlapsLeaf`.  Unlike the fill pass, for a
cross-chromosome child with `tid == chrIdxStart` and `baseStart >= end`
the source executes `break`, terminating the scan. -/
def leafCount (tid qs qe : ℕ) : List RTLeafChild → ℕ
  | [] => 0
  | c :: cs =>
    if tid < c.box.chrIdxStart ∨ c.box.chrIdxEnd < tid then leafCount tid qs qe cs
    else if c.box.chrIdxStart ≠ c.box.chrIdxEnd then
      if tid = c.box.chrIdxStart then
        if qe ≤ c.box.baseStart then 0
        else 1 + leafCount tid qs qe cs
      else if tid = c.box.chrIdxEnd then
        if c.box.baseEnd ≤ qs then leafCount tid qs qe cs
        else 1 + leafCount tid qs qe cs
      else 1 + leafCount tid qs qe cs
    else
      if c.box.baseStart ≥ qe ∨ c.box.baseEnd ≤ qs then leafCount tid qs qe cs
      else 1 + leafCount tid qs qe cs

/-- Second (fill) pass of `overlapsLeaf`: scan with `continue` semantics,
record `(DataOffset, Size)` of each accepted child, and stop as soon as
`n` entries have been filled (`idx >= o.N → break`). -/
def leafFill (tid qs qe : ℕ) : List RTLeafChild → ℕ → List (ℕ × ℕ)
  | _, 0 => []
  | [], _ + 1 => []
  | c :: cs, n + 1 =>
    if childAccept tid qs qe c.box then
      (c.dataOffset, c.size) :: leafFill tid qs qe cs n
    else leafFill tid qs qe cs (n + 1)

/-- `overlapsLeaf`: count with the break-terminated pass, then fill the
first `count` accepted children; the source's final consistency check
(`idx != o.N` prints a mismatch and returns `nil`) is kept. -/
def overlapsLeaf (tid qs qe : ℕ) (cs : List RTLeafChild) : Option (List (ℕ × ℕ)) :=
  let n := leafCount tid qs qe cs
  let res := leafFill tid qs qe cs n
  if res.length = n then some res else none

/-- `walkRTreeNodes` / `overlapsNonLeaf`: depth-first traversal, childrens'
results concatenated in child order (`mergeOverlapBlocks` appends); a `nil`
from any child propagates. -/
def walkRTreeNodes (tid qs qe : ℕ) : RTNode → Option (List (ℕ × ℕ))
  | .leaf cs => overlapsLeaf tid qs qe cs
  | .branch cs => walkBranch tid qs qe cs
where
  /-- The child loop of `overlapsNonLeaf`. -/
  walkBranch (tid qs qe : ℕ) : List (RTChild × RTNode) → Option (List (ℕ × ℕ))
  | [] => some []
  | (c, child) :: rest =>
    if childAccept tid qs qe c then do
      let sub ← walkRTreeNodes tid qs qe child
      let rs ← walkBranch tid qs qe rest
      pure (sub ++ rs)
    else walkBranch tid qs qe rest

/-- The open file model: raw bytes of the underlying (local) resource,
the compression flag (`fp.Hdr.bufsize > 0`), the zlib decompressor as an
abstract parameter, the finite-`float32` bit decoder, the chromosome list
(`fp.Cl.Chrom`, order is the tid), the main R-tree root, and the zoom
header (`fp.Hdr.ZoomHdrs[0]`, absent when `nLevels == 0`). -/
structure ZoomHdr where
  levels : List ℕ
  roots : List RTNode

structure BWFile where
  file : List ℕ
  compressed : Bool
  dec : List ℕ → Option (List ℕ)
  f32 : ℕ → ℚ
  chroms : List String
  root : RTNode
  zoomHdr : Option ZoomHdr

/-- `bwSetPos` + `URL.Read` of one data block in the local-file model:
seeking is always accepted; the read fails (`n != size`) iff fewer than
`size` bytes remain. -/
def readBlock (f : BWFile) (off sz : ℕ) : Option (List ℕ) :=
  if off + sz ≤ f.file.length then some ((f.file.drop off).take sz) else none

/-- Read one block and, when the file is compressed, run it through zlib
(`decompressZlibDebug`, modelled by the abstract `dec`). -/
def getBlockData (f : BWFile) (off sz : ℕ) : Option (List ℕ) :=
  (readBlock f off sz).bind (fun raw => if f.compressed then f.dec raw else some raw)

/-- `bwGetOverlappingIntervalsCore`: process the overlapping blocks in
order, appending each block's records; any seek/read/decompress/header
failure or unknown section type aborts with `nil`. -/
def bwGetOverlappingIntervalsCore (f : BWFile) :
    List (ℕ × ℕ) → ℕ → ℕ → ℕ → Option (List bwInterval)
  | [], _, _, _ => some []
  | (off, sz) :: rest, tid, ostart, oend => do
    let data ← getBlockData f off sz
    let recs ← bwDecodeBlock tid ostart oend data
    let rs ← bwGetOverlappingIntervalsCore f rest tid ostart oend
    pure (recs ++ rs)

/-- `bwGetTid`: the empty name is rejected, otherwise a linear scan over
the chromosome list returns the first matching index
(`^uint32(0)`, i.e. not found, is `none`). -/
def bwGetTid (chroms : List String) (chrom : String) : Option ℕ :=
  if chrom = "" then none else go chroms 0
where
  go : List String → ℕ → Option ℕ
  | [], _ => none
  | c :: cs, i => if c = chrom then some i else go cs (i + 1)

/-- `bwGetOverlappingBlocks`: tid lookup (`nil` when the contig does not
exist) followed by the R-tree walk. -/
def bwGetOverlappingBlocks (f : BWFile) (chrom : String) (qs qe : ℕ) :
    Option (List (ℕ × ℕ)) := do
  let tid ← bwGetTid f.chroms chrom
  walkRTreeNodes tid qs qe f.root

/-- `bwGetOverlappingIntervals`: the one-shot query. -/
def bwGetOverlappingIntervals (f : BWFile) (chrom : String) (qs qe : ℕ) :
    Option (List bwInterval) := do
  let tid ← bwGetTid f.chroms chrom
  let blocks ← bwGetOverlappingBlocks f chrom qs qe
  bwGetOverlappingIntervalsCore f blocks tid qs qe

/-- Iterator state (`bwOverlapIterator_t`).  `blocks = none` models a `nil`
`Blocks` field; `intervals` is the current batch; `dataPresent` models
`Data != nil` (the loop condition of the consumer). -/
structure IterState where
  tid : ℕ
  qs : ℕ
  qe : ℕ
  blocks : Option (List (ℕ × ℕ))
  offset : ℕ
  k : ℕ
  intervals : Option (List bwInterval)
  dataPresent : Bool
  deriving DecidableEq, Repr

/-- `bwOverlappingIntervalsIterator`: return `nil` on an unknown
chromosome; otherwise walk the tree once, decode the first
`blocksPerIteration` blocks (the source temporarily truncates `blocks.N`),
and set `Offset = blocksPerIteration`.  When the walk itself failed the
iterator is returned with `Blocks = nil` and no data. -/
def bwOverlappingIntervalsIterator (f : BWFile) (chrom : String) (qs qe k : ℕ) :
    Option IterState :=
  match bwGetTid f.chroms chrom with
  | none => none
  | some tid =>
    match bwGetOverlappingBlocks f chrom qs qe with
    | none =>
      some { tid := tid, qs := qs, qe := qe, blocks := none, offset := 0, k := k,
             intervals := none, dataPresent := false }
    | some bs =>
      let iv := bwGetOverlappingIntervalsCore f (bs.take k) tid qs qe
      some { tid := tid, qs := qs, qe := qe, blocks := some bs, offset := k, k := k,
             intervals := iv, dataPresent := iv.isSome }

/-- `bwIteratorNext`: `nil` iterator or `nil` `Blocks` fail; otherwise the
previous batch is dropped and, while `Offset < blocks.N`, the next
`min(k, N - Offset)` blocks are decoded (a decode failure returns `nil`);
once `Offset >= N` the state with `Data = nil` is the terminal sentinel. -/
def bwIteratorNext (f : BWFile) (s : IterState) : Option IterState :=
  match s.blocks with
  | none => none
  | some bs =>
    let s0 := { s with intervals := none, dataPresent := false }
    if s0.offset < bs.length then
      let currentN := if bs.length < s0.offset + s0.k then bs.length - s0.offset else s0.k
      let batch := (bs.drop s0.offset).take currentN
      let iv := bwGetOverlappingIntervalsCore f batch s0.tid s0.qs s0.qe
      match iv with
      | none => none
      | some recs =>
        some { s0 with intervals := some recs, dataPresent := true,
                       offset := s0.offset + s0.k }
    else some s0

/-- The consumer loop of `ReadBigWigSignal`: while `Data != nil`, append
the current batch and call `bwIteratorNext`; `fuel` bounds the number of
steps (the Go loop runs unboundedly; with `blocksPerIteration ≥ 1` it
terminates, which the theorems below make explicit). -/
def bwIterCollect (f : BWFile) : ℕ → IterState → Option (List bwInterval)
  | 0, s => if s.dataPresent then none else some []
  | fuel + 1, s =>
    if s.dataPresent then
      match s.intervals, bwIteratorNext f s with
      | some recs, some s' => (bwIterCollect f fuel s').map (fun r => recs ++ r)
      | _, _ => none
    else some []

/-- A per-base output cell of `bwGetValues` with `includeNA`: `none` is the
`NaN` fill, `some b` a copied `float32` bit pattern. -/
abbrev bwNAValue : Type := Option ℕ

/-- The inner position loop of the `includeNA` branch of `bwGetValues`:
for `n` positions starting at `j`, skip those outside `[qs, qe)` and write
the interval's value bits at index `j - qs` otherwise. -/
def bwWritePositions (qs qe vbits : ℕ) : ℕ → ℕ → List (Option ℕ) → List (Option ℕ)
  | _, 0, acc => acc
  | j, n + 1, acc =>
    let acc' := if j < qs ∨ qe ≤ j then acc else acc.set (j - qs) (some vbits)
    bwWritePositions qs qe vbits (j + 1) n acc'

/-- Write one intermediate interval into the accumulator slice: the Go loop
runs `j` over `[Start[i], End[i])` (no iterations when `End ≤ Start`). -/
def bwWriteInterval (qs qe : ℕ) (iv : bwInterval) (acc : List (Option ℕ)) :
    List (Option ℕ) :=
  bwWritePositions qs qe iv.valBits iv.iStart (iv.iEnd - iv.iStart) acc

/-- The `includeNA` branch of `bwGetValues`: a slice of `end - start`
values, all `NaN`, then for each intermediate interval `i` in order and
each position `j ∈ [Start[i], End[i])` with `start ≤ j < end`,
`Value[j - start] = intermediate.Value[i]` (later intervals overwrite). -/
def bwGetValuesNA (qs qe : ℕ) (ivs : List bwInterval) : List bwNAValue :=
  ivs.foldl (fun acc iv => bwWriteInterval qs qe iv acc)
    (List.replicate (qe - qs) (none : Option ℕ))

/-- `bwGetValues` with `includeNA = true`: run the one-shot interval query
and project it to per-base values. -/
def bwGetValues (f : BWFile) (chrom : String) (qs qe : ℕ) : Option (List bwNAValue) :=
  (bwGetOverlappingIntervals f chrom qs qe).map (bwGetValuesNA qs qe)

/-- A zoom summary record (`bwSummary`); the four `float32` statistics are
carried as exact rationals obtained through the file's finite-value
decoder. -/
structure bwSummary where
  chromId : ℕ
  sStart : ℕ
  sEnd : ℕ
  validCount : ℕ
  minVal : ℚ
  maxVal : ℚ
  sumData : ℚ
  sumSquares : ℚ
  deriving DecidableEq, Repr

/-- A `float32` cell of the zoom output: `NaN`, the `-Inf` / `+Inf`
accumulator seeds, or a finite value. -/
inductive ZVal where
  | nan
  | ninf
  | pinf
  | val (x : ℚ)
  deriving DecidableEq, Repr

/-- IEEE `x > acc` against a max accumulator (never `NaN` on the paths
used): anything is greater than `-Inf`, nothing is greater than `+Inf`. -/
def zGT (x : ℚ) : ZVal → Bool
  | .ninf => true
  | .pinf => false
  | .val c => decide (c < x)
  | .nan => false

/-- IEEE `x < acc` against a min accumulator. -/
def zLT (x : ℚ) : ZVal → Bool
  | .pinf => true
  | .ninf => false
  | .val c => decide (x < c)
  | .nan => false

/-- Parse the summary record at slot `j` of a decoded zoom block
(32 bytes per record, fields in on-disk order). -/
def parseSummaryAt (f32 : ℕ → ℚ) (data : List ℕ) (j : ℕ) : bwSummary :=
  let off := 32 * j
  { chromId := u32le (data.drop off)
    sStart := u32le (data.drop (off + 4))
    sEnd := u32le (data.drop (off + 8))
    validCount := u32le (data.drop (off + 12))
    minVal := f32 (u32le (data.drop (off + 16)))
    maxVal := f32 (u32le (data.drop (off + 20)))
    sumData := f32 (u32le (data.drop (off + 24)))
    sumSquares := f32 (u32le (data.drop (off + 28))) }

/-- Parse and filter the summaries of one zoom block
(`bwGetSummariesInRegion` keeps `ChromId == tid && Start < end && End > start`). -/
def bwParseSummaries (f : BWFile) (tid qs qe : ℕ) (data : List ℕ) : List bwSummary :=
  ((List.range (data.length / 32)).map (parseSummaryAt f.f32 data)).filter
    (fun s => decide (s.chromId = tid) && decide (s.sStart < qe) && decide (qs < s.sEnd))

/-- The block loop of `bwGetSummariesInRegion`: read/decompress each
overlapping zoom block and append its filtered summaries. -/
def summariesFromBlocks (f : BWFile) (tid qs qe : ℕ) :
    List (ℕ × ℕ) → Option (List bwSummary)
  | [] => some []
  | (off, sz) :: rest => do
    let data ← getBlockData f off sz
    let rs ← summariesFromBlocks f tid qs qe rest
    pure (bwParseSummaries f tid qs qe data ++ rs)

/-- `bwGetSummariesInRegion`: fails without zoom headers, on an
out-of-range zoom index, on an unknown chromosome or when the zoom index
tree cannot be loaded; a failed or empty tree walk yields an *empty*
summary list without error; otherwise the blocks are decoded. -/
def bwGetSummariesInRegion (f : BWFile) (zoomIdx : ℕ) (chrom : String) (qs qe : ℕ) :
    Option (List bwSummary) :=
  match f.zoomHdr with
  | none => none
  | some zh =>
    if zoomIdx < zh.levels.length then
      match bwGetTid f.chroms chrom with
      | none => none
      | some tid =>
        match zh.roots.get? zoomIdx with
        | none => none
        | some root =>
          match walkRTreeNodes tid qs qe root with
          | none => some []
          | some [] => some []
          | some bs => summariesFromBlocks f tid qs qe bs
    else none

/-- One rebinning accumulator of `bwGetValuesFromZoom` /
`bwGetValuesFromRaw`: `validCount`, `sumData`, and the min/max
accumulators seeded with `+Inf` / `-Inf`. -/
structure BinAcc where
  validCount : ℕ
  sumData : ℚ
  minAcc : ZVal
  maxAcc : ZVal
  deriving DecidableEq, Repr

/-- The empty accumulator (`validCount = 0`, `sumData = 0`,
`minVal = +Inf`, `maxVal = -Inf`). -/
def BinAcc.init : BinAcc := ⟨0, 0, .pinf, .ninf⟩

/-- Lower bin boundary: `start + uint32(float64(i) * binSize)` with
`binSize = (end-start)/numBins`; the `uint32` conversion truncates the
non-negative product, i.e. floors it. -/
def binLo (qs qe numBins i : ℕ) : ℕ := qs + i * (qe - qs) / numBins

/-- Upper bin boundary, the same formula at `i+1`. -/
def binHi (qs qe numBins i : ℕ) : ℕ := qs + (i + 1) * (qe - qs) / numBins

/-- Fold one summary record into a bin accumulator
(the summary loop body of `bwGetValuesFromZoom`): skip non-overlapping
records, skip zero overlaps, add `⌊validCount · overlap/width⌋` and
`sumData · overlap/width`, and update the unweighted min/max. -/
def zoomAccumStep (bStart bEnd : ℕ) (acc : BinAcc) (sum : bwSummary) : BinAcc :=
  if sum.sEnd ≤ bStart ∨ bEnd ≤ sum.sStart then acc
  else
    let overlap := min sum.sEnd bEnd - max sum.sStart bStart
    if overlap = 0 then acc
    else
      let sumWidth := sum.sEnd - sum.sStart
      { validCount := acc.validCount + sum.validCount * overlap / sumWidth
        sumData := acc.sumData + sum.sumData * ((overlap : ℚ) / (sumWidth : ℚ))
        maxAcc := if zGT sum.maxVal acc.maxAcc then .val sum.maxVal else acc.maxAcc
        minAcc := if zLT sum.minVal acc.minAcc then .val sum.minVal else acc.minAcc }

/-- Final bin value from an accumulator: the `summaryType` switch shared
verbatim by `bwGetValuesFromZoom` and `bwGetValuesFromRaw`; a bin with
`validCount == 0` keeps its `NaN` initialisation. -/
def binValue (styp : String) (qs qe numBins : ℕ) (acc : BinAcc) : ZVal :=
  if 0 < acc.validCount then
    if styp = "mean" ∨ styp = "average" then .val (acc.sumData / (acc.validCount : ℚ))
    else if styp = "max" ∨ styp = "maximum" then acc.maxAcc
    else if styp = "min" ∨ styp = "minimum" then acc.minAcc
    else if styp = "coverage" then .val ((numBins : ℚ) / ((qe - qs : ℕ) : ℚ) * (acc.validCount : ℚ))
    else if styp = "sum" then .val acc.sumData
    else .val (acc.sumData / (acc.validCount : ℚ))
  else .nan

/-- The whole-bin accumulation of `bwGetValuesFromZoom` for bin `i`. -/
def zoomBinAcc (summaries : List bwSummary) (qs qe numBins i : ℕ) : BinAcc :=
  summaries.foldl (zoomAccumStep (binLo qs qe numBins i) (binHi qs qe numBins i)) BinAcc.init

/-- The rebinning loop of `bwGetValuesFromZoom`: all bins start as `NaN`;
with no summaries the `NaN` array is returned as is. -/
def bwZoomRebin (summaries : List bwSummary) (qs qe numBins : ℕ) (styp : String) : List ZVal :=
  if summaries.length = 0 then List.replicate numBins .nan
  else (List.range numBins).map
    (fun i => binValue styp qs qe numBins (zoomBinAcc summaries qs qe numBins i))

/-- `bwGetValuesFromZoom`: fetch the summaries of the chosen zoom level
and rebin them. -/
def bwGetValuesFromZoom (f : BWFile) (zoomIdx : ℕ) (chrom : String)
    (qs qe numBins : ℕ) (styp : String) : Option (List ZVal) :=
  (bwGetSummariesInRegion f zoomIdx chrom qs qe).map
    (fun sums => bwZoomRebin sums qs qe numBins styp)

/-- Index scan of `bwSelectBestZoomLevel`: keep the first index minimising
`desired - level` among levels `≤ desired`; `closest` starts at
`^uint32(0)` and only a strictly smaller difference wins. -/
def bwSelectGo (desired : ℕ) : List ℕ → ℕ → Option ℕ → ℕ → Option ℕ
  | [], _, best, _ => best
  | l :: ls, i, best, closest =>
    if l ≤ desired ∧ desired - l < closest then bwSelectGo desired ls (i + 1) (some i) (desired - l)
    else bwSelectGo desired ls (i + 1) best closest

/-- `bwSelectBestZoomLevel` (the best-under policy): `-1` (here `none`)
when `desiredReduction <= 1`, the level list is empty, or no level is
`≤ desired`. -/
def bwSelectBestZoomLevel (levels : List ℕ) (desired : ℕ) : Option ℕ :=
  if desired ≤ 1 ∨ levels = [] then none
  else bwSelectGo desired levels 0 none 4294967295

/-- Index scan of `bwGetBestZoomClosest` over `|desired - level|`. -/
def bwClosestGo (desired : ℕ) : List ℕ → ℕ → Option ℕ → ℕ → Option ℕ
  | [], _, best, _ => best
  | l :: ls, i, best, closest =>
    if ((desired : ℤ) - (l : ℤ)).natAbs < closest then
      bwClosestGo desired ls (i + 1) (some i) ((desired : ℤ) - (l : ℤ)).natAbs
    else bwClosestGo desired ls (i + 1) best closest

/-- `bwGetBestZoomClosest` (the closest policy). -/
def bwGetBestZoomClosest (levels : List ℕ) (desired : ℕ) : Option ℕ :=
  if levels = [] then none
  else bwClosestGo desired levels 0 none 4294967295

/-- Fold one raw interval into a bin accumulator (the interval loop body of
`bwGetValuesFromRaw`): overlap is counted in base pairs, the interval
contributing `validCount = overlap` and `sumData = value · overlap`. -/
def rawAccumStep (f32 : ℕ → ℚ) (bStart bEnd : ℕ) (acc : BinAcc) (iv : bwInterval) : BinAcc :=
  if iv.iEnd ≤ bStart ∨ bEnd ≤ iv.iStart then acc
  else
    let overlap := min iv.iEnd bEnd - max iv.iStart bStart
    if 0 < overlap then
      let v := f32 iv.valBits
      { validCount := acc.validCount + overlap
        sumData := acc.sumData + v * (overlap : ℚ)
        maxAcc := if zGT v acc.maxAcc then .val v else acc.maxAcc
        minAcc := if zLT v acc.minAcc then .val v else acc.minAcc }
    else acc

/-- The whole-bin accumulation of `bwGetValuesFromRaw` for bin `i`. -/
def rawBinAcc (f32 : ℕ → ℚ) (ivs : List bwInterval) (qs qe numBins i : ℕ) : BinAcc :=
  ivs.foldl (rawAccumStep f32 (binLo qs qe numBins i) (binHi qs qe numBins i)) BinAcc.init

/-- `bwGetValuesFromRaw`: rebin directly from the one-shot raw intervals;
a failed or empty intervals query yields the all-`NaN` array without
error (the source swallows the `nil`). -/
def bwGetValuesFromRaw (f : BWFile) (chrom : String) (qs qe numBins : ℕ)
    (styp : String) : List ZVal :=
  match bwGetOverlappingIntervals f chrom qs qe with
  | none => List.replicate numBins .nan
  | some [] => List.replicate numBins .nan
  | some ivs =>
    (List.range numBins).map
      (fun i => binValue styp qs qe numBins (rawBinAcc f.f32 ivs qs qe numBins i))

/-- The desired reduction computed by `bwGetValuesAutoZoom`:
`(end - start) / numBins`, raised to at least 2. -/
def autoDesired (qs qe numBins : ℕ) : ℕ :=
  let d := (qe - qs) / numBins
  if d < 2 then 2 else d

/-- `bwGetValuesAutoZoom`: with no zoom header, or when the best-under
selector finds no level, fall back to the raw rebinning; otherwise use the
selected zoom level. -/
def bwGetValuesAutoZoom (f : BWFile) (chrom : String) (qs qe numBins : ℕ)
    (styp : String) : Option (List ZVal) :=
  match f.zoomHdr with
  | none => some (bwGetValuesFromRaw f chrom qs qe numBins styp)
  | some zh =>
    match bwSelectBestZoomLevel zh.levels (autoDesired qs qe numBins) with
    | some idx => bwGetValuesFromZoom f idx chrom qs qe numBins styp
    | none => some (bwGetValuesFromRaw f chrom qs qe numBins styp)

/-- The NaN-to-zero rewrite `GetZoomValues` applies to its result (the
goroutines partition the index range disjointly, so the parallel loop is
the pointwise map; `math.IsNaN` is true only for `NaN`, not for `±Inf`). -/
def nanToZero : ZVal → ZVal
  | .nan => .val 0
  | v => v

/-- The public `GetZoomValues` method: fails (`nil`) when there are no zoom
headers or when the chosen selector returns `-1`; otherwise reads the
selected zoom level with `summaryType = "mean"` and replaces every `NaN`
bin by `0` before returning. -/
def GetZoomValues (f : BWFile) (chrom : String) (qs qe numBins : ℕ)
    (useClosest : Bool) (desiredReduction : ℕ) : Option (List ZVal) :=
  match f.zoomHdr with
  | none => none
  | some zh =>
    let sel := if useClosest then bwGetBestZoomClosest else bwSelectBestZoomLevel
    match sel zh.levels desiredReduction with
    | none => none
    | some zoomIdx =>
      (bwGetValuesFromZoom f zoomIdx chrom qs qe numBins "mean").map (List.map nanToZero)

/-- State of the remote (`http`/`https`) variant of `URL`: the logical
position `FilePos` and the download buffer.  The underlying remote content
is a byte list; the model assumes a well-behaved range server that returns
the requested window clamped to the file (empty beyond the end). -/
structure RemoteState where
  filePos : ℤ
  buf : List ℕ
  deriving DecidableEq, Repr

/-- `URL.fillBuffer`: issue `Range: bytes=FilePos-FilePos+65535`, replace
the buffer with the response body and advance `FilePos` by the bytes
delivered. -/
def fillBuffer (file : List ℕ) (s : RemoteState) : RemoteState :=
  let fetched := (file.drop s.filePos.toNat).take 65536
  { filePos := s.filePos + fetched.length, buf := fetched }

/-- `URL.Read` on a remote resource: refill an empty buffer, then serve up
to `n` bytes from the front of the buffer (an empty result is the
`io.EOF` case). -/
def urlRead (file : List ℕ) (s : RemoteState) (n : ℕ) : List ℕ × RemoteState :=
  let s' := if s.buf.length = 0 then fillBuffer file s else s
  (s'.buf.take n, { s' with buf := s'.buf.drop n })

/-- `URL.Seek` with `io.SeekStart` on a remote resource: set `FilePos` and
invalidate the buffer (`u.buf.Reset()`). -/
def urlSeekStart (_ : RemoteState) (off : ℤ) : RemoteState :=
  { filePos := off, buf := [] }

/-- `URL.Seek` with `io.SeekCurrent` on a remote resource: adjust
`FilePos` by `off` and invalidate the buffer. -/
def urlSeekCurrent (s : RemoteState) (off : ℤ) : RemoteState :=
  { filePos := s.filePos + off, buf := [] }

/-- `bwTell` = `Seek(0, io.SeekCurrent)`: reports `FilePos` (and, on a
remote resource, resets the buffer as every remote seek does). -/
def urlTell (s : RemoteState) : ℤ × RemoteState :=
  (s.filePos, urlSeekCurrent s 0)

/-- One user operation on a remote resource (`SeekEnd` always fails on the
remote path and leaves no state change worth tracking). -/
inductive RemoteOp where
  | read (n : ℕ)
  | seekStart (off : ℤ)
  | seekCurrent (off : ℤ)
  deriving DecidableEq, Repr

/-- Apply one operation to a remote state. -/
def applyRemoteOp (file : List ℕ) (s : RemoteState) : RemoteOp → RemoteState
  | .read n => (urlRead file s n).2
  | .seekStart off => urlSeekStart s off
  | .seekCurrent off => urlSeekCurrent s off

/-- Run a sequence of operations from a state. -/
def runRemoteOps (file : List ℕ) (s : RemoteState) (ops : List RemoteOp) : RemoteState :=
  ops.foldl (applyRemoteOp file) s

/-- The state right after `Open` of a remote URL: position 0, empty buffer. -/
def remoteInit : RemoteState := ⟨0, []⟩

/-- The byte sequence produced by a series of subsequent reads of the given
sizes. -/
def remoteReads (file : List ℕ) : RemoteState → List ℕ → List ℕ
  | _, [] => []
  | s, n :: ns =>
    let r := urlRead file s n
    r.1 ++ remoteReads file r.2 ns

/-- `seek(Start, tell())` as a composite operation on a remote resource. -/
def seekTell (s : RemoteState) : RemoteState :=
  let t := urlTell s
  urlSeekStart t.2 t.1

/-- State of the local (`os.File`) variant of `URL`: just the cursor; reads
are served directly from the underlying byte list. -/
structure LocalState where
  pos : ℤ
  deriving DecidableEq, Repr

/-- `Read` on a local file: serve up to `n` bytes at the cursor and
advance it. -/
def localRead (file : List ℕ) (s : LocalState) (n : ℕ) : List ℕ × LocalState :=
  let bytes := (file.drop s.pos.toNat).take n
  (bytes, ⟨s.pos + bytes.length⟩)

/-- `Seek(off, io.SeekStart)` on a local file. -/
def localSeekStart (_ : LocalState) (off : ℤ) : LocalState := ⟨off⟩

/-- `tell` on a local file (`Seek(0, io.SeekCurrent)`), side-effect free. -/
def localTell (s : LocalState) : ℤ := s.pos

/-- The byte sequence produced by subsequent reads on a local file. -/
def localReads (file : List ℕ) : LocalState → List ℕ → List ℕ
  | _, [] => []
  | s, n :: ns =>
    let r := localRead file s n
    r.1 ++ localReads file r.2 ns

/-- The condition under which the counting pass of `overlapsLeaf` executes
`break`: `tid` within the child's chromosome range, a cross-chromosome
child, `tid == chrIdxStart`, and `baseStart >= end`. -/
def leafBreakCond (tid qe : ℕ) (c : RTChild) : Bool :=
  decide (¬(tid < c.chrIdxStart ∨ c.chrIdxEnd < tid)) &&
  decide (c.chrIdxStart ≠ c.chrIdxEnd) &&
  decide (tid = c.chrIdxStart) &&
  decide (qe ≤ c.baseStart)

/-- The prefix of a leaf's children actually scanned by the counting pass:
everything before the first break-triggering child. -/
def leafScanPrefix (tid qe : ℕ) (cs : List RTLeafChild) : List RTLeafChild :=
  cs.takeWhile (fun c => !leafBreakCond tid qe c.box)

/-- The `(DataOffset, Size)` payload of a leaf child. -/
def leafPayload (c : RTLeafChild) : ℕ × ℕ := (c.dataOffset, c.size)

/-- On-disk record size per section type (12 for bedGraph, 8 for
variableStep, 4 for fixedStep). -/
def recSize (typ : ℕ) : ℕ := if typ = 1 then 12 else if typ = 2 then 8 else 4

/-- The record filter as a predicate on records. -/
def keepRec (ostart oend : ℕ) (r : bwInterval) : Bool :=
  emitKeep ostart oend r.iStart r.iEnd

/-- The records of a block as decoded, before the query filter: the same
position arithmetic as `bwDecodeItems` (bedGraph reads start and end,
variableStep reads start and adds the span, fixedStep pre-increments by
the step and adds the span, all in `uint32` arithmetic), one record per
item. -/
def bwRawRecords (typ stp spn : ℕ) : ℕ → ℕ → List ℕ → List bwInterval
  | 0, _, _ => []
  | n + 1, start, p =>
    if typ = 1 then
      ⟨u32le p, u32le (p.drop 4), u32le (p.drop 8)⟩ ::
        bwRawRecords typ stp spn n (u32le p) (p.drop 12)
    else if typ = 2 then
      ⟨u32le p, (u32le p + spn) % U32, u32le (p.drop 4)⟩ ::
        bwRawRecords typ stp spn n (u32le p) (p.drop 8)
    else if typ = 3 then
      ⟨(start + stp) % U32, ((start + stp) % U32 + spn) % U32, u32le p⟩ ::
        bwRawRecords typ stp spn n ((start + stp) % U32) (p.drop 4)
    else []

/-- The value of the last interval in traversal order covering `pos`
(`none` when no interval covers it). -/
def lastCovering : List bwInterval → ℕ → Option ℕ
  | [], _ => none
  | iv :: ivs, pos =>
    match lastCovering ivs pos with
    | some v => some v
    | none => if iv.iStart ≤ pos ∧ pos < iv.iEnd then some iv.valBits else none

/-- A one-block local file for concrete runs: chromosome `chr1` (tid 0),
one uncompressed bedGraph block at offset 0 (36 bytes: 24-byte header with
tid 0, type 1, nItems 1, then the record `(2, 5, bits 9)`). -/
def exFile : BWFile :=
  { file := [0, 0, 0, 0, 0, 0, 0, 0, 0, 0, 0, 0, 0, 0, 0, 0, 0, 0, 0, 0, 1, 0, 1, 0,
             2, 0, 0, 0, 5, 0, 0, 0, 9, 0, 0, 0]
    compressed := false
    dec := fun _ => none
    f32 := fun b => (b : ℚ)
    chroms := ["chr1"]
    root := RTNode.leaf [⟨⟨0, 0, 0, 10⟩, 0, 36⟩]
    zoomHdr := none }

/-- A local file with one zoom level (reduction 16) whose index holds one
block: a single uncompressed 32-byte summary record
`(chromId 0, [0,100), validCount 100, min bits 1, max bits 1, sum bits 200)`.
The finite-value decoder reads a bit pattern as the rational of the same
numeral. -/
def zoomExFile : BWFile :=
  { file := [0, 0, 0, 0, 0, 0, 0, 0, 100, 0, 0, 0, 100, 0, 0, 0,
             1, 0, 0, 0, 1, 0, 0, 0, 200, 0, 0, 0, 0, 0, 0, 0]
    compressed := false
    dec := fun _ => none
    f32 := fun b => (b : ℚ)
    chroms := ["chr1"]
    root := RTNode.leaf []
    zoomHdr := some ⟨[16], [RTNode.leaf [⟨⟨0, 0, 0, 100⟩, 0, 32⟩]]⟩ }

/-- A local file with two uncompressed bedGraph blocks (records `(2,5,9)`
and `(7,9,4)`) indexed by a two-child leaf, for concrete iterator runs. -/
def c5File : BWFile :=
  { file := [0, 0, 0, 0, 0, 0, 0, 0, 0, 0, 0, 0, 0, 0, 0, 0, 0, 0, 0, 0, 1, 0, 1, 0,
             2, 0, 0, 0, 5, 0, 0, 0, 9, 0, 0, 0,
             0, 0, 0, 0, 0, 0, 0, 0, 0, 0, 0, 0, 0, 0, 0, 0, 0, 0, 0, 0, 1, 0, 1, 0,
             7, 0, 0, 0, 9, 0, 0, 0, 4, 0, 0, 0]
    compressed := false
    dec := fun _ => none
    f32 := fun b => (b : ℚ)
    chroms := ["chr1"]
    root := RTNode.leaf [⟨⟨0, 0, 0, 10⟩, 0, 36⟩, ⟨⟨0, 0, 0, 10⟩, 36, 36⟩]
    zoomHdr := none }

/-- `exFile`'s raw data with one zoom level of reduction 16 whose index is
never consulted: with a small desired reduction the best-under selector
finds no level `≤ desired`, exercising the selector-returns-none path. -/
def zoomSelFile : BWFile :=
  { file := [0, 0, 0, 0, 0, 0, 0, 0, 0, 0, 0, 0, 0, 0, 0, 0, 0, 0, 0, 0, 1, 0, 1, 0,
             2, 0, 0, 0, 5, 0, 0, 0, 9, 0, 0, 0]
    compressed := false
    dec := fun _ => none
    f32 := fun b => (b : ℚ)
    chroms := ["chr1"]
    root := RTNode.leaf [⟨⟨0, 0, 0, 10⟩, 0, 36⟩]
    zoomHdr := some ⟨[16], [RTNode.leaf []]⟩ }

/-- C3: the claim `seek(Start, tell())` never changes subsequent reads
fails on a remote resource whose buffer holds unread bytes: after `Open`
of a 3-byte remote file and one 1-byte read, the buffer still holds two
fetched bytes and `FilePos` is already past them, so `seek(Start, tell())`
discards them and the next read returns nothing instead of the second
byte. -/
theorem seekTell_remote_counterexample :
    remoteReads [10, 20, 30]
        (seekTell (runRemoteOps [10, 20, 30] remoteInit [RemoteOp.read 1])) [1] ≠
      remoteReads [10, 20, 30]
        (runRemoteOps [10, 20, 30] remoteInit [RemoteOp.read 1]) [1] := by
  decide

/-- C3 (amended): `seek(Start, tell())` leaves subsequent reads unchanged
on a local resource (always), and on a remote resource exactly in the
states whose download buffer is empty — there the composite is the
identity on the state.  (With a non-empty remote buffer the buffered bytes
are skipped, as the counterexample shows.) -/
theorem seekTell_preserves_reads (file : List ℕ) :
    (∀ (s : LocalState) (ns : List ℕ),
        localReads file (localSeekStart s (localTell s)) ns = localReads file s ns) ∧
    (∀ (s : RemoteState) (ns : List ℕ), s.buf = [] →
        remoteReads file (seekTell s) ns = remoteReads file s ns) := by
  constructor
  · intro s ns
    cases s
    rfl
  · intro s ns h
    have hs : seekTell s = s := by
      cases s with
      | mk p b =>
        simp only [RemoteState.mk.injEq] at h ⊢
        simp [seekTell, urlTell, urlSeekCurrent, urlSeekStart, h]
    rw [hs]

/-- Witness for `seekTell_preserves_reads` at a concrete empty-buffer
remote state. -/
theorem seekTell_preserves_reads_witness :
    (⟨1, []⟩ : RemoteState).buf = [] ∧
      remoteReads [5, 6] (seekTell ⟨1, []⟩) [2] = remoteReads [5, 6] ⟨1, []⟩ [2] :=
  ⟨rfl, (seekTell_preserves_reads [5, 6]).2 ⟨1, []⟩ [2] rfl⟩

/-- The counting pass counts exactly the accepted children of the scanned
prefix. -/
theorem leafCount_eq_prefix (tid qs qe : ℕ) (cs : List RTLeafChild) :
    leafCount tid qs qe cs =
      ((leafScanPrefix tid qe cs).filter (fun c => childAccept tid qs qe c.box)).length := by
  induction cs with
  | nil => rfl
  | cons c cs ih =>
    have hpre : leafScanPrefix tid qe (c :: cs) =
        if leafBreakCond tid qe c.box then [] else c :: leafScanPrefix tid qe cs := by
      unfold leafScanPrefix
      rcases hb : leafBreakCond tid qe c.box <;> simp [List.takeWhile_cons, hb]
    by_cases h1 : tid < c.box.chrIdxStart ∨ c.box.chrIdxEnd < tid
    · have hB : leafBreakCond tid qe c.box = false := by
        simp only [leafBreakCond]
        simp
        omega
      have hA : childAccept tid qs qe c.box = false := by
        simp [childAccept, h1]
      have hC : leafCount tid qs qe (c :: cs) = leafCount tid qs qe cs := by
        simp only [leafCount, if_pos h1]
      rw [hC, hpre, if_neg (by simp [hB]), List.filter_cons, hA]
      simpa using ih
    · by_cases h2 : c.box.chrIdxStart = c.box.chrIdxEnd
      · have hB : leafBreakCond tid qe c.box = false := by
          simp only [leafBreakCond]
          simp
          omega
        have hC : leafCount tid qs qe (c :: cs) =
            if qe ≤ c.box.baseStart ∨ c.box.baseEnd ≤ qs then leafCount tid qs qe cs
            else 1 + leafCount tid qs qe cs := by
          simp only [leafCount, if_neg h1, if_neg (show ¬(c.box.chrIdxStart ≠ c.box.chrIdxEnd) from not_not_intro h2)]
        by_cases h3 : qe ≤ c.box.baseStart ∨ c.box.baseEnd ≤ qs
        · have hA : childAccept tid qs qe c.box = false := by
            simp only [childAccept, if_neg h1,
              if_neg (show ¬(c.box.chrIdxStart ≠ c.box.chrIdxEnd) from not_not_intro h2),
              decide_eq_false_iff_not]
            omega
          rw [hC, if_pos h3, hpre, if_neg (by simp [hB]), List.filter_cons, hA]
          simpa using ih
        · have hA : childAccept tid qs qe c.box = true := by
            simp only [childAccept, if_neg h1,
              if_neg (show ¬(c.box.chrIdxStart ≠ c.box.chrIdxEnd) from not_not_intro h2),
              decide_eq_true_eq]
            omega
          rw [hC, if_neg h3, hpre, if_neg (by simp [hB]), List.filter_cons, hA]
          simp
          omega
      · by_cases h4 : tid = c.box.chrIdxStart
        · by_cases h5 : qe ≤ c.box.baseStart
          · have hB : leafBreakCond tid qe c.box = true := by
              simp only [leafBreakCond]
              simp
              omega
            have hC : leafCount tid qs qe (c :: cs) = 0 := by
              simp only [leafCount, if_neg h1, if_pos h2, if_pos h4, if_pos h5]
            rw [hC, hpre, if_pos (by simp [hB])]
            rfl
          · have hB : leafBreakCond tid qe c.box = false := by
              simp only [leafBreakCond]
              simp
              omega
            have hA : childAccept tid qs qe c.box = true := by
              simp only [childAccept, if_neg h1, if_pos h2, if_pos h4, decide_eq_true_eq]
              omega
            have hC : leafCount tid qs qe (c :: cs) = 1 + leafCount tid qs qe cs := by
              simp only [leafCount, if_neg h1, if_pos h2, if_pos h4, if_neg h5]
            rw [hC, hpre, if_neg (by simp [hB]), List.filter_cons, hA]
            simp
            omega
        · have hB : leafBreakCond tid qe c.box = false := by
            simp only [leafBreakCond]
            simp
            omega
          by_cases h6 : tid = c.box.chrIdxEnd
          · by_cases h7 : c.box.baseEnd ≤ qs
            · have hA : childAccept tid qs qe c.box = false := by
                simp only [childAccept, if_neg h1, if_pos h2, if_neg h4, if_pos h6,
                  decide_eq_false_iff_not]
                omega
              have hC : leafCount tid qs qe (c :: cs) = leafCount tid qs qe cs := by
                simp only [leafCount, if_neg h1, if_pos h2, if_neg h4, if_pos h6, if_pos h7]
              rw [hC, hpre, if_neg (by simp [hB]), List.filter_cons, hA]
              simpa using ih
            · have hA : childAccept tid qs qe c.box = true := by
                simp only [childAccept, if_neg h1, if_pos h2, if_neg h4, if_pos h6,
                  decide_eq_true_eq]
                omega
              have hC : leafCount tid qs qe (c :: cs) = 1 + leafCount tid qs qe cs := by
                simp only [leafCount, if_neg h1, if_pos h2, if_neg h4, if_pos h6, if_neg h7]
              rw [hC, hpre, if_neg (by simp [hB]), List.filter_cons, hA]
              simp
              omega
          · have hA : childAccept tid qs qe c.box = true := by
              simp only [childAccept, if_neg h1, if_pos h2, if_neg h4, if_neg h6]
            have hC : leafCount tid qs qe (c :: cs) = 1 + leafCount tid qs qe cs := by
              simp only [leafCount, if_neg h1, if_pos h2, if_neg h4, if_neg h6]
            rw [hC, hpre, if_neg (by simp [hB]), List.filter_cons, hA]
            simp
            omega

/-- The fill pass takes the first `n` accepted children of the whole list. -/
theorem leafFill_eq_take (tid qs qe : ℕ) (cs : List RTLeafChild) (n : ℕ) :
    leafFill tid qs qe cs n =
      ((cs.filter (fun c => childAccept tid qs qe c.box)).map leafPayload).take n := by
  induction cs generalizing n with
  | nil => cases n <;> rfl
  | cons c cs ih =>
    cases n with
    | zero => rfl
    | succ n =>
      by_cases h : childAccept tid qs qe c.box
      · simp [leafFill, h, List.filter_cons, ih, leafPayload]
      · simp [leafFill, h, List.filter_cons, ih]

/-- What `overlapsLeaf` actually returns: the accepted children of the
prefix scanned before the counting pass's `break`, in order (the final
mismatch check never fires). -/
theorem overlapsLeaf_eq (tid qs qe : ℕ) (cs : List RTLeafChild) :
    overlapsLeaf tid qs qe cs =
      some (((leafScanPrefix tid qe cs).filter
        (fun c => childAccept tid qs qe c.box)).map leafPayload) := by
  unfold overlapsLeaf
  dsimp only
  rw [leafFill_eq_take, leafCount_eq_prefix]
  have hsplit : cs.filter (fun c => childAccept tid qs qe c.box) =
      (leafScanPrefix tid qe cs).filter (fun c => childAccept tid qs qe c.box) ++
      (cs.dropWhile (fun c => !leafBreakCond tid qe c.box)).filter
        (fun c => childAccept tid qs qe c.box) := by
    conv_lhs => rw [← List.takeWhile_append_dropWhile
      (p := fun c => !leafBreakCond tid qe c.box) (l := cs)]
    rw [List.filter_append]
    rfl
  rw [hsplit, List.map_append]
  have hlen : (((leafScanPrefix tid qe cs).filter
      (fun c => childAccept tid qs qe c.box)).map leafPayload).length =
        ((leafScanPrefix tid qe cs).filter (fun c => childAccept tid qs qe c.box)).length :=
    List.length_map _ _
  rw [← hlen, List.take_left, hlen]
  simp

/-- C2 (counterexample): in `overlapsLeaf`, rejecting a cross-chromosome
child with `tid == chrIdxStart` and `baseStart >= end` terminates the scan
(`break` in the counting pass), so a later acceptable child is dropped:
with children `[(chr 0..1, base 100..50) ↦ (11,12), (chr 0..0, base 0..50) ↦ (21,22)]`
and query `(tid 0, 0, 50)` the source returns no blocks although the
acceptance predicate admits the second child. -/
theorem overlapsLeaf_break_counterexample :
    overlapsLeaf 0 0 50 [⟨⟨0, 100, 1, 50⟩, 11, 12⟩, ⟨⟨0, 0, 0, 50⟩, 21, 22⟩] = some [] ∧
    (([⟨⟨0, 100, 1, 50⟩, 11, 12⟩, ⟨⟨0, 0, 0, 50⟩, 21, 22⟩].filter
        (fun c => childAccept 0 0 50 c.box)).map leafPayload = [(21, 22)]) ∧
    overlapsLeaf 0 0 50 [⟨⟨0, 100, 1, 50⟩, 11, 12⟩, ⟨⟨0, 0, 0, 50⟩, 21, 22⟩] ≠
      some (([⟨⟨0, 100, 1, 50⟩, 11, 12⟩, ⟨⟨0, 0, 0, 50⟩, 21, 22⟩].filter
        (fun c => childAccept 0 0 50 c.box)).map leafPayload) := by
  refine ⟨by decide, by decide, by decide⟩

/-- C2 (amended): the per-child acceptance predicate is `childAccept` for
both node kinds and, on a cross-chromosome child with
`chrIdxStart ≤ tid ≤ chrIdxEnd`, coincides with
`(tid ≠ chrIdxStart ∨ baseStart < end) ∧ (tid ≠ chrIdxEnd ∨ baseEnd > start)`;
in `overlapsNonLeaf` a rejected child never stops the scan of its
siblings; but in `overlapsLeaf` the scan stops at the first
cross-chromosome child with `tid = chrIdxStart` and `baseStart ≥ end`,
and only the accepted children of the prefix before it are returned. -/
theorem rtree_child_acceptance (tid qs qe : ℕ) (cs : List RTLeafChild)
    (bcs : List (RTChild × RTNode)) (c : RTChild) (t : RTNode)
    (hrej : childAccept tid qs qe c = false) :
    (∀ c' : RTChild, c'.chrIdxStart ≠ c'.chrIdxEnd → c'.chrIdxStart ≤ tid →
        tid ≤ c'.chrIdxEnd →
        (childAccept tid qs qe c' = true ↔
          ((tid ≠ c'.chrIdxStart ∨ c'.baseStart < qe) ∧
            (tid ≠ c'.chrIdxEnd ∨ qs < c'.baseEnd)))) ∧
    walkRTreeNodes.walkBranch tid qs qe ((c, t) :: bcs) =
      walkRTreeNodes.walkBranch tid qs qe bcs ∧
    overlapsLeaf tid qs qe cs =
      some (((leafScanPrefix tid qe cs).filter
        (fun x => childAccept tid qs qe x.box)).map leafPayload) := by
  refine ⟨?_, ?_, overlapsLeaf_eq tid qs qe cs⟩
  · intro c' hne hlo hhi
    simp only [childAccept, if_neg (show ¬(tid < c'.chrIdxStart ∨ c'.chrIdxEnd < tid) by omega),
      if_pos hne]
    by_cases hcs : tid = c'.chrIdxStart
    · rw [if_pos hcs]
      simp only [decide_eq_true_eq]
      constructor
      · intro h
        exact ⟨Or.inr h, Or.inl (by omega)⟩
      · rintro ⟨h | h, _⟩
        · exact absurd hcs h
        · exact h
    · rw [if_neg hcs]
      by_cases hce : tid = c'.chrIdxEnd
      · rw [if_pos hce]
        simp only [decide_eq_true_eq]
        constructor
        · intro h
          exact ⟨Or.inl hcs, Or.inr h⟩
        · rintro ⟨_, h | h⟩
          · exact absurd hce h
          · exact h
      · rw [if_neg hce]
        simp only [true_iff]
        exact ⟨Or.inl hcs, Or.inl hce⟩
  · simp [walkRTreeNodes.walkBranch, hrej]

/-- Witness for `rtree_child_acceptance` at concrete inputs: a rejected
single-chromosome branch child does not stop the sibling scan. -/
theorem rtree_child_acceptance_witness :
    childAccept 0 0 10 ⟨2, 0, 2, 10⟩ = false ∧
    walkRTreeNodes.walkBranch 0 0 10
        ((⟨2, 0, 2, 10⟩, RTNode.leaf []) :: [(⟨0, 0, 0, 10⟩, RTNode.leaf [⟨⟨0, 0, 0, 10⟩, 7, 8⟩])]) =
      walkRTreeNodes.walkBranch 0 0 10 [(⟨0, 0, 0, 10⟩, RTNode.leaf [⟨⟨0, 0, 0, 10⟩, 7, 8⟩])] :=
  ⟨by decide,
    (rtree_child_acceptance 0 0 10 [] [(⟨0, 0, 0, 10⟩, RTNode.leaf [⟨⟨0, 0, 0, 10⟩, 7, 8⟩])]
      ⟨2, 0, 2, 10⟩ (RTNode.leaf []) (by decide)).2.1⟩

theorem pushFilter_append (ostart oend s e v : ℕ) (l : List bwInterval) :
    pushFilter ostart oend s e v ++ l.filter (keepRec ostart oend) =
      ((⟨s, e, v⟩ : bwInterval) :: l).filter (keepRec ostart oend) := by
  rw [List.filter_cons]
  by_cases h : e ≤ ostart ∨ oend ≤ s
  · rw [pushFilter, if_pos h]
    have hk : keepRec ostart oend ⟨s, e, v⟩ = false := by
      simp [keepRec, emitKeep]
      omega
    rw [hk]
    simp
  · rw [pushFilter, if_neg h]
    have hk : keepRec ostart oend ⟨s, e, v⟩ = true := by
      simp [keepRec, emitKeep]
      omega
    rw [hk]
    simp

/-- With a payload long enough for all declared items, the decode loop
returns exactly the decoded records filtered by the query window, with
unclamped coordinates. -/
theorem bwDecodeItems_eq_filter_raw (typ stp spn ostart oend : ℕ)
    (htyp : typ = 1 ∨ typ = 2 ∨ typ = 3) (n : ℕ) :
    ∀ (start : ℕ) (p : List ℕ), recSize typ * n ≤ p.length →
      bwDecodeItems typ stp spn ostart oend n start p =
        some ((bwRawRecords typ stp spn n start p).filter (keepRec ostart oend)) := by
  induction n with
  | zero => intro start p _; rfl
  | succ n ih =>
    intro start p hlen
    rcases htyp with h | h | h
    · subst h
      rw [show recSize 1 = 12 from rfl] at hlen
      have h12 : ¬(p.length < 12) := by omega
      have hrec : recSize 1 * n ≤ (p.drop 12).length := by
        rw [show recSize 1 = 12 from rfl, List.length_drop]
        omega
      simp only [bwDecodeItems, bwRawRecords]
      rw [if_pos trivial, if_pos trivial,
        if_neg h12, ih _ _ hrec]
      simp only [Option.map_some']
      rw [pushFilter_append]
    · subst h
      rw [show recSize 2 = 8 from rfl] at hlen
      have h8 : ¬(p.length < 8) := by omega
      have hrec : recSize 2 * n ≤ (p.drop 8).length := by
        rw [show recSize 2 = 8 from rfl, List.length_drop]
        omega
      have hne : (2 : ℕ) ≠ 1 := by decide
      simp only [bwDecodeItems, bwRawRecords]
      rw [if_neg hne, if_neg hne, if_pos trivial,
        if_pos trivial, if_neg h8, ih _ _ hrec]
      simp only [Option.map_some']
      rw [pushFilter_append]
    · subst h
      rw [show recSize 3 = 4 from rfl] at hlen
      have h4 : ¬(p.length < 4) := by omega
      have hrec : recSize 3 * n ≤ (p.drop 4).length := by
        rw [show recSize 3 = 4 from rfl, List.length_drop]
        omega
      have hne1 : (3 : ℕ) ≠ 1 := by decide
      have hne2 : (3 : ℕ) ≠ 2 := by decide
      simp only [bwDecodeItems, bwRawRecords]
      rw [if_neg hne1, if_neg hne1, if_neg hne2, if_neg hne2,
        if_pos trivial, if_pos trivial,
        if_neg h4, ih _ _ hrec]
      simp only [Option.map_some']
      rw [pushFilter_append]

/-- In the fixedStep case, without `uint32` overflow the decoded records
are at `start + (j+1)·step` with value the `j`-th payload word. -/
theorem bwRawRecords_fixedStep (stp spn : ℕ) (n : ℕ) :
    ∀ (hstart : ℕ) (p : List ℕ), hstart + n * stp + spn < U32 →
      bwRawRecords 3 stp spn n hstart p =
        (List.range n).map (fun j =>
          (⟨hstart + (j + 1) * stp, hstart + (j + 1) * stp + spn,
            u32le (p.drop (4 * j))⟩ : bwInterval)) := by
  induction n with
  | zero => intro hstart p _; rfl
  | succ n ih =>
    intro hstart p hov
    have hstp : stp ≤ (n + 1) * stp := Nat.le_mul_of_pos_left stp (Nat.succ_pos n)
    have hmul : (n + 1) * stp = n * stp + stp := Nat.succ_mul n stp
    have h1 : (hstart + stp) % U32 = hstart + stp := Nat.mod_eq_of_lt (by omega)
    have h2 : (hstart + stp + spn) % U32 = hstart + stp + spn := Nat.mod_eq_of_lt (by omega)
    have hov' : (hstart + stp) + n * stp + spn < U32 := by omega
    have hne1 : (3 : ℕ) ≠ 1 := by decide
    have hne2 : (3 : ℕ) ≠ 2 := by decide
    simp only [bwRawRecords]
    rw [if_neg hne1, if_neg hne2, if_pos trivial, h1, h2, ih _ _ hov']
    rw [List.range_succ_eq_map, List.map_cons, List.map_map]
    congr 1
    · simp
    · apply List.map_congr_left
      intro j _
      simp only [Function.comp_apply, Nat.succ_eq_add_one, bwInterval.mk.injEq]
      refine ⟨by ring, by ring, ?_⟩
      rw [List.drop_drop]
      have h44 : 4 + 4 * j = 4 * (j + 1) := by omega
      rw [h44]

/-- C9: for a same-tid block with a complete payload, the decode loop
emits `(start, end, value)` iff `end > ostart ∧ start < oend`, and the
emitted coordinates are exactly the decoded ones, never clamped: the
output is the decoded record list filtered by the query window. -/
theorem decode_emits_filtered_unclamped (typ stp spn ostart oend n start : ℕ) (p : List ℕ)
    (htyp : typ = 1 ∨ typ = 2 ∨ typ = 3)
    (hlen : recSize typ * n ≤ p.length) :
    bwDecodeItems typ stp spn ostart oend n start p =
      some ((bwRawRecords typ stp spn n start p).filter (keepRec ostart oend)) ∧
    ∀ r : bwInterval, keepRec ostart oend r = true ↔ (ostart < r.iEnd ∧ r.iStart < oend) := by
  refine ⟨bwDecodeItems_eq_filter_raw typ stp spn ostart oend htyp n start p hlen, ?_⟩
  intro r
  simp [keepRec, emitKeep]

/-- Witness for `decode_emits_filtered_unclamped`: one bedGraph record
`(100, 200, bits 3)` against the query window `(150, 450)`. -/
theorem decode_emits_filtered_unclamped_witness :
    ((1 : ℕ) = 1 ∨ (1 : ℕ) = 2 ∨ (1 : ℕ) = 3) ∧
    recSize 1 * 1 ≤ ([100, 0, 0, 0, 200, 0, 0, 0, 3, 0, 0, 0] : List ℕ).length ∧
    (bwDecodeItems 1 0 0 150 450 1 0 [100, 0, 0, 0, 200, 0, 0, 0, 3, 0, 0, 0] =
      some ((bwRawRecords 1 0 0 1 0 [100, 0, 0, 0, 200, 0, 0, 0, 3, 0, 0, 0]).filter
        (keepRec 150 450))) :=
  ⟨Or.inl rfl, by decide,
    (decode_emits_filtered_unclamped 1 0 0 150 450 1 0
      [100, 0, 0, 0, 200, 0, 0, 0, 3, 0, 0, 0] (Or.inl rfl) (by decide)).1⟩

/-- C4: in a fixedStep block with header fields `start`, `step`, `span`
and a complete payload (and no `uint32` overflow), the decoder assigns the
`j`-th record the interval `[start + (j+1)·step, start + (j+1)·step + span)`
paired with the `j`-th `float32` word of the payload; the query filter is
then applied to those records. -/
theorem fixedStep_record_positions (stp spn ostart oend n hstart : ℕ) (p : List ℕ)
    (hlen : 4 * n ≤ p.length)
    (hov : hstart + n * stp + spn < U32) :
    bwDecodeItems 3 stp spn ostart oend n hstart p =
      some (((List.range n).map (fun j =>
        (⟨hstart + (j + 1) * stp, hstart + (j + 1) * stp + spn,
          u32le (p.drop (4 * j))⟩ : bwInterval))).filter (keepRec ostart oend)) := by
  rw [bwDecodeItems_eq_filter_raw 3 stp spn ostart oend (Or.inr (Or.inr rfl)) n hstart p
      (by rw [show recSize 3 = 4 from rfl]; exact hlen),
    bwRawRecords_fixedStep stp spn n hstart p hov]

/-- Witness for `fixedStep_record_positions`: the spec's literal scenario,
header `start = 1000, step = 10, span = 5`, four values, query
`0..10000`. -/
theorem fixedStep_record_positions_witness :
    4 * 4 ≤ ([5, 0, 0, 0, 6, 0, 0, 0, 7, 0, 0, 0, 8, 0, 0, 0] : List ℕ).length ∧
    1000 + 4 * 10 + 5 < U32 ∧
    (bwDecodeItems 3 10 5 0 10000 4 1000 [5, 0, 0, 0, 6, 0, 0, 0, 7, 0, 0, 0, 8, 0, 0, 0] =
      some (((List.range 4).map (fun j =>
        (⟨1000 + (j + 1) * 10, 1000 + (j + 1) * 10 + 5,
          u32le (([5, 0, 0, 0, 6, 0, 0, 0, 7, 0, 0, 0, 8, 0, 0, 0] : List ℕ).drop
            (4 * j))⟩ : bwInterval))).filter (keepRec 0 10000))) :=
  ⟨by decide, by decide,
    fixedStep_record_positions 10 5 0 10000 4 1000
      [5, 0, 0, 0, 6, 0, 0, 0, 7, 0, 0, 0, 8, 0, 0, 0] (by decide) (by decide)⟩

/-- C8: a block whose decoded header tid differs from the query tid
contributes no intervals, raises no error, and decoding continues with
the remaining blocks. -/
theorem crossChromosome_block_skipped (f : BWFile) (off sz tid ostart oend : ℕ)
    (rest : List (ℕ × ℕ)) (data : List ℕ)
    (hdata : getBlockData f off sz = some data)
    (h24 : 24 ≤ data.length)
    (htid : (bwFillDataHdr data).tid ≠ tid) :
    bwGetOverlappingIntervalsCore f ((off, sz) :: rest) tid ostart oend =
      bwGetOverlappingIntervalsCore f rest tid ostart oend := by
  have hdec : bwDecodeBlock tid ostart oend data = some [] := by
    unfold bwDecodeBlock
    rw [if_neg (by omega)]
    dsimp only
    rw [if_pos htid]
  simp only [bwGetOverlappingIntervalsCore]
  rw [hdata]
  simp [hdec]

/-- Witness for `crossChromosome_block_skipped`: a single 24-byte block
with header tid 5 against a query on tid 0. -/
theorem crossChromosome_block_skipped_witness :
    getBlockData
        ⟨[5, 0, 0, 0, 0, 0, 0, 0, 0, 0, 0, 0, 0, 0, 0, 0, 0, 0, 0, 0, 1, 0, 0, 0],
          false, fun _ => none, fun _ => 0, ["chr1"], RTNode.leaf [], none⟩ 0 24 =
      some [5, 0, 0, 0, 0, 0, 0, 0, 0, 0, 0, 0, 0, 0, 0, 0, 0, 0, 0, 0, 1, 0, 0, 0] ∧
    24 ≤ ([5, 0, 0, 0, 0, 0, 0, 0, 0, 0, 0, 0, 0, 0, 0, 0, 0, 0, 0, 0, 1, 0, 0, 0] : List ℕ).length ∧
    (bwFillDataHdr [5, 0, 0, 0, 0, 0, 0, 0, 0, 0, 0, 0, 0, 0, 0, 0, 0, 0, 0, 0, 1, 0, 0, 0]).tid ≠ 0 ∧
    bwGetOverlappingIntervalsCore
        ⟨[5, 0, 0, 0, 0, 0, 0, 0, 0, 0, 0, 0, 0, 0, 0, 0, 0, 0, 0, 0, 1, 0, 0, 0],
          false, fun _ => none, fun _ => 0, ["chr1"], RTNode.leaf [], none⟩
        [(0, 24)] 0 0 100 =
      bwGetOverlappingIntervalsCore
        ⟨[5, 0, 0, 0, 0, 0, 0, 0, 0, 0, 0, 0, 0, 0, 0, 0, 0, 0, 0, 0, 1, 0, 0, 0],
          false, fun _ => none, fun _ => 0, ["chr1"], RTNode.leaf [], none⟩
        [] 0 0 100 :=
  ⟨by decide, by decide, by decide,
    crossChromosome_block_skipped _ 0 24 0 0 100 []
      [5, 0, 0, 0, 0, 0, 0, 0, 0, 0, 0, 0, 0, 0, 0, 0, 0, 0, 0, 0, 1, 0, 0, 0]
      (by decide) (by decide) (by decide)⟩

theorem bwWritePositions_length (qs qe v : ℕ) (n : ℕ) :
    ∀ (j0 : ℕ) (acc : List (Option ℕ)),
      (bwWritePositions qs qe v j0 n acc).length = acc.length := by
  induction n with
  | zero => intro j0 acc; rfl
  | succ n ih =>
    intro j0 acc
    simp only [bwWritePositions]
    rw [ih]
    by_cases h : j0 < qs ∨ qe ≤ j0
    · rw [if_pos h]
    · rw [if_neg h, List.length_set]

theorem bwWritePositions_getElem (qs qe v : ℕ) (n : ℕ) :
    ∀ (j0 : ℕ) (acc : List (Option ℕ)) (j : ℕ), j < acc.length → qs + j < qe →
      (bwWritePositions qs qe v j0 n acc)[j]? =
        if j0 ≤ qs + j ∧ qs + j < j0 + n then some (some v) else acc[j]? := by
  induction n with
  | zero =>
    intro j0 acc j _ _
    rw [if_neg (by omega)]
    rfl
  | succ n ih =>
    intro j0 acc j hj hqe
    simp only [bwWritePositions]
    by_cases hskip : j0 < qs ∨ qe ≤ j0
    · rw [if_pos hskip, ih (j0 + 1) acc j hj hqe]
      by_cases hin : j0 + 1 ≤ qs + j ∧ qs + j < j0 + 1 + n
      · rw [if_pos hin, if_pos (by omega)]
      · rw [if_neg hin, if_neg (by omega)]
    · rw [if_neg hskip,
        ih (j0 + 1) (acc.set (j0 - qs) (some v)) j (by rw [List.length_set]; exact hj) hqe]
      by_cases hin : j0 + 1 ≤ qs + j ∧ qs + j < j0 + 1 + n
      · rw [if_pos hin, if_pos (by omega)]
      · rw [if_neg hin]
        by_cases heq : j0 = qs + j
        · rw [if_pos (by omega)]
          have hidx : j0 - qs = j := by omega
          rw [hidx]
          exact List.getElem?_set_eq_of_lt _ hj
        · rw [if_neg (by omega)]
          exact List.getElem?_set_ne (by omega)

theorem bwWriteInterval_getElem (qs qe : ℕ) (iv : bwInterval) (acc : List (Option ℕ))
    (j : ℕ) (hj : j < acc.length) (hqe : qs + j < qe) :
    (bwWriteInterval qs qe iv acc)[j]? =
      if iv.iStart ≤ qs + j ∧ qs + j < iv.iEnd then some (some iv.valBits) else acc[j]? := by
  rw [bwWriteInterval, bwWritePositions_getElem qs qe iv.valBits _ _ acc j hj hqe]
  by_cases h : iv.iStart ≤ qs + j ∧ qs + j < iv.iStart + (iv.iEnd - iv.iStart)
  · rw [if_pos h, if_pos (by omega)]
  · rw [if_neg h, if_neg (by omega)]

theorem bwWriteInterval_length (qs qe : ℕ) (iv : bwInterval) (acc : List (Option ℕ)) :
    (bwWriteInterval qs qe iv acc).length = acc.length := by
  rw [bwWriteInterval, bwWritePositions_length]

theorem foldl_write_length (qs qe : ℕ) (ivs : List bwInterval) :
    ∀ acc : List (Option ℕ),
      (ivs.foldl (fun a iv => bwWriteInterval qs qe iv a) acc).length = acc.length := by
  induction ivs with
  | nil => intro acc; rfl
  | cons iv ivs ih =>
    intro acc
    rw [List.foldl_cons, ih, bwWriteInterval_length]

theorem foldl_write_getElem (qs qe : ℕ) (ivs : List bwInterval) :
    ∀ (acc : List (Option ℕ)) (j : ℕ), j < acc.length → qs + j < qe →
      (ivs.foldl (fun a iv => bwWriteInterval qs qe iv a) acc)[j]? =
        (match lastCovering ivs (qs + j) with
          | some v => some (some v)
          | none => acc[j]?) := by
  induction ivs with
  | nil => intro acc j _ _; rfl
  | cons iv ivs ih =>
    intro acc j hj hqe
    rw [List.foldl_cons,
      ih (bwWriteInterval qs qe iv acc) j (by rw [bwWriteInterval_length]; exact hj) hqe]
    simp only [lastCovering]
    cases hlast : lastCovering ivs (qs + j) with
    | some v => rfl
    | none =>
      simp only []
      rw [bwWriteInterval_getElem qs qe iv acc j hj hqe]
      by_cases h : iv.iStart ≤ qs + j ∧ qs + j < iv.iEnd
      · rw [if_pos h, if_pos h]
      · rw [if_neg h, if_neg h]

/-- C10: with `includeNA`, when the intermediate interval query succeeds
the returned slice has length exactly `end - start`, every position not
covered by a returned interval holds the `NaN` fill, and a position
covered by several overlapping intervals holds the value of the interval
that appears last in traversal order. -/
theorem values_includeNA (f : BWFile) (chrom : String) (qs qe : ℕ) (ivs : List bwInterval)
    (hle : qs ≤ qe)
    (h : bwGetOverlappingIntervals f chrom qs qe = some ivs) :
    bwGetValues f chrom qs qe = some (bwGetValuesNA qs qe ivs) ∧
    (bwGetValuesNA qs qe ivs).length = qe - qs ∧
    ∀ j, j < qe - qs →
      (bwGetValuesNA qs qe ivs)[j]? =
        (match lastCovering ivs (qs + j) with
          | some v => some (some v)
          | none => some none) := by
  refine ⟨by rw [bwGetValues, h]; rfl, ?_, ?_⟩
  · rw [bwGetValuesNA, foldl_write_length, List.length_replicate]
  · intro j hj
    rw [bwGetValuesNA,
      foldl_write_getElem qs qe ivs _ j (by simpa using hj) (by omega)]
    cases hlast : lastCovering ivs (qs + j) with
    | some v => rfl
    | none =>
      simp only []
      rw [List.getElem?_replicate, if_pos (by omega)]

/-- Witness for `values_includeNA` on `exFile` over `[0, 6)`. -/
theorem values_includeNA_witness :
    (0 : ℕ) ≤ 6 ∧
    bwGetOverlappingIntervals exFile "chr1" 0 6 = some [⟨2, 5, 9⟩] ∧
    (bwGetValues exFile "chr1" 0 6 = some (bwGetValuesNA 0 6 [⟨2, 5, 9⟩]) ∧
      (bwGetValuesNA 0 6 [⟨2, 5, 9⟩]).length = 6 - 0 ∧
      ∀ j, j < 6 - 0 →
        (bwGetValuesNA 0 6 [⟨2, 5, 9⟩])[j]? =
          (match lastCovering [⟨2, 5, 9⟩] (0 + j) with
            | some v => some (some v)
            | none => some none)) :=
  ⟨by decide, by decide,
    values_includeNA exFile "chr1" 0 6 [⟨2, 5, 9⟩] (by decide) (by decide)⟩

/-- C7 (counterexample): on a file whose only chromosome is `chr1`, a
query for `chrX` makes the iterator constructor return `nil` (an error,
which `ReadBigWigSignal` reports as a failure), not an empty sequence. -/
theorem iterator_unknown_chrom_counterexample :
    bwOverlappingIntervalsIterator exFile "chrX" 0 10 1 = none ∧
    bwGetOverlappingIntervals exFile "chrX" 0 10 = none := by
  refine ⟨?_, ?_⟩ <;> decide

/-- C7 (amended): on a non-existent chromosome name both the explicit
interval lookup and the iterator constructor fail with `nil`; the iterator
path does not degrade to an empty sequence. -/
theorem unknown_chrom_both_fail (f : BWFile) (chrom : String) (qs qe k : ℕ)
    (h : bwGetTid f.chroms chrom = none) :
    bwGetOverlappingIntervals f chrom qs qe = none ∧
    bwOverlappingIntervalsIterator f chrom qs qe k = none := by
  constructor
  · rw [bwGetOverlappingIntervals, h]
    rfl
  · rw [bwOverlappingIntervalsIterator, h]

/-- Witness for `unknown_chrom_both_fail` at a concrete file and name. -/
theorem unknown_chrom_both_fail_witness :
    bwGetTid exFile.chroms "chr9" = none ∧
    (bwGetOverlappingIntervals exFile "chr9" 0 10 = none ∧
      bwOverlappingIntervalsIterator exFile "chr9" 0 10 1 = none) :=
  ⟨by decide, unknown_chrom_both_fail exFile "chr9" 0 10 1 (by decide)⟩

theorem getD_map_range (g : ℕ → ZVal) (n i : ℕ) (hi : i < n) :
    ((List.range n).map g).getD i .nan = g i := by
  rw [List.getD_eq_getElem?_getD, List.getElem?_map, List.getElem?_range hi]
  rfl

unseal Rat.add Rat.mul Rat.inv Rat.sub in
/-- C1 (counterexample): through the public `GetZoomValues` a successful
query does not keep `NaN` in gap bins: on `zoomExFile` with two bins over
`[0, 200)` the second bin accumulates `validCount = 0` (no summary
overlaps `[100, 200)`), yet the returned array holds `0` there, because
`GetZoomValues` rewrites every `NaN` to `0` before returning. -/
theorem zoom_nan_to_zero_counterexample :
    GetZoomValues zoomExFile "chr1" 0 200 2 false 16 = some [ZVal.val 2, ZVal.val 0] ∧
    bwGetSummariesInRegion zoomExFile 0 "chr1" 0 200 =
      some [⟨0, 0, 100, 100, 1, 1, 200, 0⟩] ∧
    (zoomBinAcc [⟨0, 0, 100, 100, 1, 1, 200, 0⟩] 0 200 2 1).validCount = 0 ∧
    ZVal.val 0 ≠ ZVal.nan :=
  ⟨by decide, by decide, by decide, by decide⟩

/-- C1 (amended): the zoom core `bwGetValuesFromZoom` returns an array of
length `numBins` in which every bin whose accumulated `validCount` is 0
holds `NaN`; the public `GetZoomValues` then converts every `NaN` bin to
`0` before returning its result. -/
theorem zoom_gap_bins :
    (∀ (f : BWFile) (zoomIdx : ℕ) (chrom : String) (qs qe numBins : ℕ) (styp : String)
        (vals : List ZVal),
        bwGetValuesFromZoom f zoomIdx chrom qs qe numBins styp = some vals →
        vals.length = numBins ∧
        ∀ sums, bwGetSummariesInRegion f zoomIdx chrom qs qe = some sums →
          ∀ i, i < numBins → (zoomBinAcc sums qs qe numBins i).validCount = 0 →
            vals.getD i .nan = .nan) ∧
    (∀ (f : BWFile) (chrom : String) (qs qe numBins : ℕ) (uc : Bool) (dr : ℕ)
        (zh : ZoomHdr) (zoomIdx : ℕ) (vals : List ZVal),
        f.zoomHdr = some zh →
        (if uc then bwGetBestZoomClosest else bwSelectBestZoomLevel) zh.levels dr =
          some zoomIdx →
        bwGetValuesFromZoom f zoomIdx chrom qs qe numBins "mean" = some vals →
        GetZoomValues f chrom qs qe numBins uc dr = some (vals.map nanToZero)) := by
  constructor
  · intro f zoomIdx chrom qs qe numBins styp vals h
    rw [bwGetValuesFromZoom] at h
    cases hs : bwGetSummariesInRegion f zoomIdx chrom qs qe with
    | none => rw [hs] at h; exact absurd h (by simp)
    | some sums0 =>
      rw [hs] at h
      simp only [Option.map_some', Option.some.injEq] at h
      subst h
      constructor
      · rw [bwZoomRebin]
        by_cases h0 : sums0.length = 0
        · rw [if_pos h0, List.length_replicate]
        · rw [if_neg h0, List.length_map, List.length_range]
      · intro sums hsums i hi hvc
        injection hsums with hsums
        subst hsums
        rw [bwZoomRebin]
        by_cases h0 : sums0.length = 0
        · rw [if_pos h0, List.getD_eq_getElem?_getD, List.getElem?_replicate, if_pos hi]
          rfl
        · rw [if_neg h0, getD_map_range _ numBins i hi, binValue, if_neg (by omega)]
  · intro f chrom qs qe numBins uc dr zh zoomIdx vals hzh hsel hfz
    rw [GetZoomValues, hzh]
    dsimp only
    rw [hsel]
    dsimp only
    rw [hfz]
    rfl

unseal Rat.add Rat.mul Rat.inv Rat.sub in
/-- Witness for `zoom_gap_bins` on `zoomExFile`: two bins over `[0, 200)`,
the second a gap. -/
theorem zoom_gap_bins_witness :
    bwGetValuesFromZoom zoomExFile 0 "chr1" 0 200 2 "mean" =
      some [ZVal.val 2, ZVal.nan] ∧
    ([ZVal.val 2, ZVal.nan].length = 2 ∧
      ∀ sums, bwGetSummariesInRegion zoomExFile 0 "chr1" 0 200 = some sums →
        ∀ i, i < 2 → (zoomBinAcc sums 0 200 2 i).validCount = 0 →
          [ZVal.val 2, ZVal.nan].getD i .nan = .nan) ∧
    GetZoomValues zoomExFile "chr1" 0 200 2 false 16 =
      some ([ZVal.val 2, ZVal.nan].map nanToZero) :=
  ⟨by decide,
    zoom_gap_bins.1 zoomExFile 0 "chr1" 0 200 2 "mean" [ZVal.val 2, ZVal.nan] (by decide),
    zoom_gap_bins.2 zoomExFile "chr1" 0 200 2 false 16 ⟨[16], [RTNode.leaf [⟨⟨0, 0, 0, 100⟩, 0, 32⟩]]⟩
      0 [ZVal.val 2, ZVal.nan] rfl (by decide) (by decide)⟩

unseal Rat.add Rat.mul Rat.inv Rat.sub in
/-- C6 (counterexample): the public `GetZoomValues` fails (`nil`) instead
of rebinning from raw intervals, in both trigger cases: on `exFile`
(raw data present, no zoom levels) and on `zoomSelFile` (raw data present,
zoom level 16 present, but the best-under selector finds no level
`≤ desiredReduction = 4`), the raw rebinning yields `[9]` yet
`GetZoomValues` returns `nil`. -/
theorem zoom_fallback_counterexample :
    (exFile.zoomHdr = none ∧
      GetZoomValues exFile "chr1" 0 6 1 false 10 = none ∧
      bwGetValuesFromRaw exFile "chr1" 0 6 1 "mean" = [ZVal.val 9]) ∧
    (bwSelectBestZoomLevel [16] 4 = none ∧
      GetZoomValues zoomSelFile "chr1" 0 6 1 false 4 = none ∧
      bwGetValuesFromRaw zoomSelFile "chr1" 0 6 1 "mean" = [ZVal.val 9]) :=
  ⟨⟨rfl, by decide, by decide⟩, ⟨by decide, by decide, by decide⟩⟩

/-- C6 (amended): the fallback lives in `bwGetValuesAutoZoom`, not in
`GetZoomValues`: with no zoom header, or when the best-under selector
finds no level, `bwGetValuesAutoZoom` rebins directly from raw intervals
via `bwGetValuesFromRaw` (each interval contributing
`validCount = overlap` base pairs and `sumData = value · overlap`),
while `GetZoomValues` returns `nil` in both cases: when there is no zoom
header, and when its chosen selector returns none with headers present. -/
theorem autoZoom_fallback (f : BWFile) (chrom : String) (qs qe numBins : ℕ)
    (styp : String) (uc : Bool) (dr : ℕ)
    (h : f.zoomHdr = none ∨ ∃ zh, f.zoomHdr = some zh ∧
      bwSelectBestZoomLevel zh.levels (autoDesired qs qe numBins) = none) :
    bwGetValuesAutoZoom f chrom qs qe numBins styp =
      some (bwGetValuesFromRaw f chrom qs qe numBins styp) ∧
    (f.zoomHdr = none → GetZoomValues f chrom qs qe numBins uc dr = none) ∧
    (∀ zh, f.zoomHdr = some zh →
      (if uc then bwGetBestZoomClosest else bwSelectBestZoomLevel) zh.levels dr = none →
      GetZoomValues f chrom qs qe numBins uc dr = none) ∧
    (∀ (f32 : ℕ → ℚ) (bStart bEnd : ℕ) (acc : BinAcc) (iv : bwInterval),
      ¬(iv.iEnd ≤ bStart ∨ bEnd ≤ iv.iStart) →
      0 < min iv.iEnd bEnd - max iv.iStart bStart →
      (rawAccumStep f32 bStart bEnd acc iv).validCount =
        acc.validCount + (min iv.iEnd bEnd - max iv.iStart bStart) ∧
      (rawAccumStep f32 bStart bEnd acc iv).sumData =
        acc.sumData + f32 iv.valBits * ((min iv.iEnd bEnd - max iv.iStart bStart : ℕ) : ℚ)) := by
  refine ⟨?_, ?_, ?_, ?_⟩
  · rcases h with h | ⟨zh, hzh, hsel⟩
    · rw [bwGetValuesAutoZoom, h]
    · rw [bwGetValuesAutoZoom, hzh]
      simp only []
      rw [hsel]
  · intro h0
    rw [GetZoomValues, h0]
  · intro zh hzh hsel2
    rw [GetZoomValues, hzh]
    dsimp only
    rw [hsel2]
  · intro f32 bStart bEnd acc iv hov hpos
    rw [rawAccumStep, if_neg hov, if_pos hpos]
    exact ⟨rfl, rfl⟩

unseal Rat.add Rat.mul Rat.inv Rat.sub in
/-- Witness for `autoZoom_fallback` on `zoomSelFile` (zoom headers present,
best-under selector finds no level). -/
theorem autoZoom_fallback_witness :
    (zoomSelFile.zoomHdr = none ∨ ∃ zh, zoomSelFile.zoomHdr = some zh ∧
      bwSelectBestZoomLevel zh.levels (autoDesired 0 6 1) = none) ∧
    (bwGetValuesAutoZoom zoomSelFile "chr1" 0 6 1 "mean" =
        some (bwGetValuesFromRaw zoomSelFile "chr1" 0 6 1 "mean") ∧
      (zoomSelFile.zoomHdr = none → GetZoomValues zoomSelFile "chr1" 0 6 1 false 4 = none) ∧
      (∀ zh, zoomSelFile.zoomHdr = some zh →
        (if false then bwGetBestZoomClosest else bwSelectBestZoomLevel) zh.levels 4 = none →
        GetZoomValues zoomSelFile "chr1" 0 6 1 false 4 = none) ∧
      (∀ (f32 : ℕ → ℚ) (bStart bEnd : ℕ) (acc : BinAcc) (iv : bwInterval),
        ¬(iv.iEnd ≤ bStart ∨ bEnd ≤ iv.iStart) →
        0 < min iv.iEnd bEnd - max iv.iStart bStart →
        (rawAccumStep f32 bStart bEnd acc iv).validCount =
          acc.validCount + (min iv.iEnd bEnd - max iv.iStart bStart) ∧
        (rawAccumStep f32 bStart bEnd acc iv).sumData =
          acc.sumData + f32 iv.valBits * ((min iv.iEnd bEnd - max iv.iStart bStart : ℕ) : ℚ))) :=
  ⟨Or.inr ⟨⟨[16], [RTNode.leaf []]⟩, rfl, by decide⟩,
    autoZoom_fallback zoomSelFile "chr1" 0 6 1 "mean" false 4
      (Or.inr ⟨⟨[16], [RTNode.leaf []]⟩, rfl, by decide⟩)⟩

theorem core_append (f : BWFile) (l1 l2 : List (ℕ × ℕ)) (tid qs qe : ℕ) :
    bwGetOverlappingIntervalsCore f (l1 ++ l2) tid qs qe =
      (do
        let r1 ← bwGetOverlappingIntervalsCore f l1 tid qs qe
        let r2 ← bwGetOverlappingIntervalsCore f l2 tid qs qe
        pure (r1 ++ r2) : Option (List bwInterval)) := by
  induction l1 with
  | nil =>
    simp only [List.nil_append, bwGetOverlappingIntervalsCore]
    cases bwGetOverlappingIntervalsCore f l2 tid qs qe <;> rfl
  | cons b l1 ih =>
    obtain ⟨off, sz⟩ := b
    simp only [List.cons_append, bwGetOverlappingIntervalsCore, Option.pure_def,
      Option.bind_eq_bind, List.append_eq, ih]
    cases getBlockData f off sz with
    | none => rfl
    | some data =>
      simp only [Option.some_bind]
      cases bwDecodeBlock tid qs qe data with
      | none => rfl
      | some recs =>
        simp only [Option.some_bind]
        cases bwGetOverlappingIntervalsCore f l1 tid qs qe with
        | none => rfl
        | some r1 =>
          simp only [Option.some_bind]
          cases bwGetOverlappingIntervalsCore f l2 tid qs qe with
          | none => rfl
          | some r2 => simp [List.append_assoc]

theorem iterCollect_sentinel (f : BWFile) (m : ℕ) (s : IterState)
    (h : s.dataPresent = false) :
    bwIterCollect f m s = some [] := by
  cases m <;> simp [bwIterCollect, h]

theorem iterCollect_chunks (f : BWFile) (tid qs qe k : ℕ) (hk : 1 ≤ k)
    (bs : List (ℕ × ℕ)) :
    ∀ (fuel off : ℕ) (batch rest : List bwInterval),
      bs.length - off + 1 ≤ fuel →
      bwGetOverlappingIntervalsCore f ((bs.drop off).take k) tid qs qe = some batch →
      bwGetOverlappingIntervalsCore f (bs.drop (off + k)) tid qs qe = some rest →
      bwIterCollect f fuel ⟨tid, qs, qe, some bs, off + k, k, some batch, true⟩ =
        some (batch ++ rest) := by
  intro fuel
  induction fuel with
  | zero =>
    intro off batch rest hfuel _ _
    exact absurd hfuel (by omega)
  | succ m ih =>
    intro off batch rest hfuel hbatch hrest
    by_cases hoff : off + k < bs.length
    · have hsplit : bs.drop (off + k) =
          (bs.drop (off + k)).take k ++ ((bs.drop (off + k)).drop k) :=
        (List.take_append_drop k (bs.drop (off + k))).symm
      have hdd : (bs.drop (off + k)).drop k = bs.drop (off + k + k) := by
        rw [List.drop_drop]
      rw [hsplit, core_append] at hrest
      cases hb' : bwGetOverlappingIntervalsCore f ((bs.drop (off + k)).take k) tid qs qe with
      | none => rw [hb'] at hrest; exact absurd hrest (by simp)
      | some b' =>
        rw [hb'] at hrest
        cases hr' : bwGetOverlappingIntervalsCore f ((bs.drop (off + k)).drop k) tid qs qe with
        | none => rw [hr'] at hrest; exact absurd hrest (by simp)
        | some r' =>
          rw [hr'] at hrest
          simp only [Option.pure_def, Option.bind_eq_bind, Option.some_bind,
            Option.some.injEq] at hrest
          have hbatchN : (bs.drop (off + k)).take
              (if bs.length < off + k + k then bs.length - (off + k) else k) =
                (bs.drop (off + k)).take k := by
            by_cases hc : bs.length < off + k + k
            · rw [if_pos hc]
              have hlen : (bs.drop (off + k)).length = bs.length - (off + k) :=
                List.length_drop _ _
              rw [← hlen, List.take_length]
              exact (List.take_of_length_le (by omega)).symm
            · rw [if_neg hc]
          have hnext : bwIteratorNext f
              (⟨tid, qs, qe, some bs, off + k, k, some batch, true⟩ : IterState) =
              some ⟨tid, qs, qe, some bs, off + k + k, k, some b', true⟩ := by
            rw [bwIteratorNext]
            dsimp only
            rw [if_pos hoff, hbatchN, hb']
          rw [bwIterCollect]
          simp only [if_pos (show ((⟨tid, qs, qe, some bs, off + k, k, some batch, true⟩ :
            IterState).dataPresent = true) from rfl)]
          rw [hnext]
          dsimp only
          rw [show off + k + k = (off + k) + k from rfl]
          rw [ih (off + k) b' r' (by omega) (by rw [hb']) (by rw [← hdd, hr'])]
          simp [hrest]
    · have hdrop : bs.drop (off + k) = [] := List.drop_eq_nil_of_le (by omega)
      rw [hdrop] at hrest
      have hrest0 : rest = [] := by
        simpa [bwGetOverlappingIntervalsCore] using hrest.symm
      have hnext : bwIteratorNext f
          (⟨tid, qs, qe, some bs, off + k, k, some batch, true⟩ : IterState) =
          some ⟨tid, qs, qe, some bs, off + k, k, none, false⟩ := by
        rw [bwIteratorNext]
        dsimp only
        rw [if_neg hoff]
      rw [bwIterCollect]
      simp only [if_pos (show ((⟨tid, qs, qe, some bs, off + k, k, some batch, true⟩ :
        IterState).dataPresent = true) from rfl)]
      rw [hnext]
      dsimp only
      rw [iterCollect_sentinel f m _ rfl]
      simp [hrest0]

/-- C5: for every `blocksPerIteration ≥ 1`, when the one-shot query
succeeds, concatenating the interval batches produced by
`bwOverlappingIntervalsIterator` followed by `bwIteratorNext` until the
terminal sentinel yields exactly the one-shot result, in the same order
(`fuel` bounds the number of `next` steps; any `fuel` beyond the block
count works). -/
theorem iterator_totality (f : BWFile) (chrom : String) (qs qe k fuel : ℕ)
    (out : List bwInterval) (hk : 1 ≤ k)
    (h : bwGetOverlappingIntervals f chrom qs qe = some out)
    (hfuel : ∀ tid bs, bwGetTid f.chroms chrom = some tid →
        walkRTreeNodes tid qs qe f.root = some bs → bs.length + 1 ≤ fuel) :
    ∃ s0, bwOverlappingIntervalsIterator f chrom qs qe k = some s0 ∧
      bwIterCollect f fuel s0 = some out := by
  rw [bwGetOverlappingIntervals, bwGetOverlappingBlocks] at h
  cases htid : bwGetTid f.chroms chrom with
  | none => rw [htid] at h; simp at h
  | some tid =>
    rw [htid] at h
    simp only [Option.pure_def, Option.bind_eq_bind, Option.some_bind] at h
    cases hwalk : walkRTreeNodes tid qs qe f.root with
    | none => rw [hwalk] at h; simp at h
    | some bs =>
      rw [hwalk] at h
      simp only [Option.some_bind] at h
      have hsplit : bwGetOverlappingIntervalsCore f (bs.take k ++ bs.drop k) tid qs qe =
          some out := by rw [List.take_append_drop]; exact h
      rw [core_append] at hsplit
      cases hb0 : bwGetOverlappingIntervalsCore f (bs.take k) tid qs qe with
      | none => rw [hb0] at hsplit; simp at hsplit
      | some b0 =>
        rw [hb0] at hsplit
        cases hr0 : bwGetOverlappingIntervalsCore f (bs.drop k) tid qs qe with
        | none => rw [hr0] at hsplit; simp at hsplit
        | some r0 =>
          rw [hr0] at hsplit
          simp only [Option.pure_def, Option.bind_eq_bind, Option.some_bind,
            Option.some.injEq] at hsplit
          have hblocks : bwGetOverlappingBlocks f chrom qs qe = some bs := by
            rw [bwGetOverlappingBlocks, htid]
            simpa using hwalk
          refine ⟨⟨tid, qs, qe, some bs, k, k, some b0, true⟩, ?_, ?_⟩
          · rw [bwOverlappingIntervalsIterator, htid]
            dsimp only
            rw [hblocks]
            dsimp only
            rw [hb0]
            rfl
          · have hcoll := iterCollect_chunks f tid qs qe k hk bs fuel 0 b0 r0
              (by have := hfuel tid bs htid hwalk; omega)
              (by rw [List.drop_zero]; exact hb0)
              (by rw [Nat.zero_add]; exact hr0)
            rw [Nat.zero_add] at hcoll
            rw [hcoll, hsplit]

/-- Witness for `iterator_totality`: two blocks consumed one per batch. -/
theorem iterator_totality_witness :
    (1 : ℕ) ≤ 1 ∧
    bwGetOverlappingIntervals c5File "chr1" 0 10 = some [⟨2, 5, 9⟩, ⟨7, 9, 4⟩] ∧
    (∃ s0, bwOverlappingIntervalsIterator c5File "chr1" 0 10 1 = some s0 ∧
      bwIterCollect c5File 4 s0 = some [⟨2, 5, 9⟩, ⟨7, 9, 4⟩]) := by
  refine ⟨by decide, by decide, ?_⟩
  refine iterator_totality c5File "chr1" 0 10 1 4 [⟨2, 5, 9⟩, ⟨7, 9, 4⟩]
    (by decide) (by decide) ?_
  intro tid bs h1 h2
  have e1 : bwGetTid c5File.chroms "chr1" = some 0 := by decide
  rw [e1] at h1
  injection h1 with h1
  subst h1
  have e2 : walkRTreeNodes 0 0 10 c5File.root = some [(0, 36), (36, 36)] := by decide
  rw [e2] at h2
  injection h2 with h2
  subst h2
  decide
